import Mathlib

/-!
Verification of the `ipgen` address-generation library.

The library derives a stable IPv6 address from an arbitrary name and an
IPv6 CIDR. We embed the source of `src/lib.rs` shallowly:

* names (`&str` hashed as raw bytes) become byte lists `List Nat`
  (every element < 256 in use; the hash treats them mod 256 anyway);
* Rust `String`s of hex digits become `List Char`;
* the Blake2b digest from the `crypto` crate is implemented in full
  (RFC 7693, unkeyed, variable digest length) so every definition is
  executable;
* the external `ipnetwork`/`std` parsers are modelled at the level the
  library relies on: `Ipv6Network::from_str` splits on `/`, parses the
  address (full and `::`-compressed group forms) and a `u8` network size
  bounded by 128.  (IPv4-embedded IPv6 text forms are outside the model.)
* Rust `format!` error strings are embedded as structured error values
  carrying exactly the data interpolated into the message;
* every Rust slice `&s[a..b]`, which panics when out of range, is
  modelled by an `Option`-returning `slice`, and a panic of the original
  program becomes the `Outcome.panic` value.
-/

namespace IpGen

/-! ### Lowercase hexadecimal rendering -/

/-- The lowercase hex digit for a value `n < 16`, as produced by Rust's
`{:x}` formatting and by `crypto`'s `result_str`. -/
def hexChar (n : Nat) : Char :=
  if n < 10 then Char.ofNat (48 + n) else Char.ofNat (87 + n)

/-- Rendering of one byte as two lowercase hex characters (high nibble
first), as in `crypto::digest::Digest::result_str`. -/
def byteHex (b : Nat) : List Char :=
  [hexChar (b / 16 % 16), hexChar (b % 16)]

/-- `format!("{:04x}", b)` for a `u16` segment `b`: exactly four
lowercase hex digits, zero padded. -/
def format04x (b : Nat) : List Char :=
  [hexChar (b / 4096 % 16), hexChar (b / 256 % 16), hexChar (b / 16 % 16), hexChar (b % 16)]

/-- The 32-character hexadecimal expansion of an 8-segment IPv6 address:
`ip.iter().map(|b| format!("\x7b:04x\x7d", b)).collect::<Vec<_>>().join("")`. -/
def hexExpand (segs : List Nat) : List Char :=
  (segs.map format04x).flatten

/-! ### Blake2b (RFC 7693), as used by the `crypto` crate

Words are 64-bit and represented as `Nat` reduced `% 2 ^ 64` after every
addition, rotation or shift that could overflow. -/

/-- Blake2b initialisation vector. -/
def IV : List Nat :=
  [0x6a09e667f3bcc908, 0xbb67ae8584caa73b, 0x3c6ef372fe94f82b, 0xa54ff53a5f1d36f1,
   0x510e527fade682d1, 0x9b05688c2b3e6c1f, 0x1f83d9abfb41bd6b, 0x5be0cd19137e2179]

/-- Blake2b message schedule. -/
def SIGMA : List (List Nat) :=
  [[0, 1, 2, 3, 4, 5, 6, 7, 8, 9, 10, 11, 12, 13, 14, 15],
   [14, 10, 4, 8, 9, 15, 13, 6, 1, 12, 0, 2, 11, 7, 5, 3],
   [11, 8, 12, 0, 5, 2, 15, 13, 10, 14, 3, 6, 7, 1, 9, 4],
   [7, 9, 3, 1, 13, 12, 11, 14, 2, 6, 5, 10, 4, 0, 15, 8],
   [9, 0, 5, 7, 2, 4, 10, 15, 14, 1, 11, 12, 6, 8, 3, 13],
   [2, 12, 6, 10, 0, 11, 8, 3, 4, 13, 7, 5, 15, 14, 1, 9],
   [12, 5, 1, 15, 14, 13, 4, 10, 0, 7, 6, 3, 9, 2, 8, 11],
   [13, 11, 7, 14, 12, 1, 3, 9, 5, 0, 15, 4, 8, 6, 2, 10],
   [6, 15, 14, 9, 11, 3, 0, 8, 12, 2, 13, 7, 1, 4, 10, 5],
   [10, 2, 8, 4, 7, 6, 1, 5, 15, 11, 9, 14, 3, 12, 13, 0]]

/-- 64-bit right rotation. -/
def rotr64 (x n : Nat) : Nat :=
  ((x >>> n) ||| (x <<< (64 - n))) % 2 ^ 64

/-- The Blake2b `G` mixing function acting on working-vector indices
`a b c d` with message words `x y`. -/
def gmix (v : List Nat) (a b c d x y : Nat) : List Nat :=
  let va := (v.getD a 0 + v.getD b 0 + x) % 2 ^ 64
  let vd := rotr64 (v.getD d 0 ^^^ va) 32
  let vc := (v.getD c 0 + vd) % 2 ^ 64
  let vb := rotr64 (v.getD b 0 ^^^ vc) 24
  let va := (va + vb + y) % 2 ^ 64
  let vd := rotr64 (vd ^^^ va) 16
  let vc := (vc + vd) % 2 ^ 64
  let vb := rotr64 (vb ^^^ vc) 63
  (((v.set a va).set b vb).set c vc).set d vd

/-- One Blake2b round with message words `m` and schedule row `s`. -/
def blakeRound (m v s : List Nat) : List Nat :=
  let v := gmix v 0 4 8 12 (m.getD (s.getD 0 0) 0) (m.getD (s.getD 1 0) 0)
  let v := gmix v 1 5 9 13 (m.getD (s.getD 2 0) 0) (m.getD (s.getD 3 0) 0)
  let v := gmix v 2 6 10 14 (m.getD (s.getD 4 0) 0) (m.getD (s.getD 5 0) 0)
  let v := gmix v 3 7 11 15 (m.getD (s.getD 6 0) 0) (m.getD (s.getD 7 0) 0)
  let v := gmix v 0 5 10 15 (m.getD (s.getD 8 0) 0) (m.getD (s.getD 9 0) 0)
  let v := gmix v 1 6 11 12 (m.getD (s.getD 10 0) 0) (m.getD (s.getD 11 0) 0)
  let v := gmix v 2 7 8 13 (m.getD (s.getD 12 0) 0) (m.getD (s.getD 13 0) 0)
  gmix v 3 4 9 14 (m.getD (s.getD 14 0) 0) (m.getD (s.getD 15 0) 0)

/-- Interpret (up to) 128 bytes as 16 little-endian 64-bit words,
padding missing bytes with zero. -/
def bytesToWords (bs : List Nat) : List Nat :=
  (List.range 16).map (fun i => (List.range 8).foldr (fun j acc => acc * 256 + bs.getD (i * 8 + j) 0) 0)

/-- Serialise state words to little-endian bytes. -/
def wordsToBytes (ws : List Nat) : List Nat :=
  (ws.map (fun w => (List.range 8).map (fun j => w / 256 ^ j % 256))).flatten

/-- The Blake2b compression function `F(h, m, t, f)`. -/
def compress (h m : List Nat) (t : Nat) (last : Bool) : List Nat :=
  let v := h ++ IV
  let v := v.set 12 (v.getD 12 0 ^^^ (t % 2 ^ 64))
  let v := v.set 13 (v.getD 13 0 ^^^ (t / 2 ^ 64 % 2 ^ 64))
  let v := if last then v.set 14 (v.getD 14 0 ^^^ (2 ^ 64 - 1)) else v
  let v := (List.range 12).foldl (fun w i => blakeRound m w (SIGMA.getD (i % 10) [])) v
  (List.range 8).map (fun i => h.getD i 0 ^^^ v.getD i 0 ^^^ v.getD (i + 8) 0)

/-- Initial state for an unkeyed digest of `nn` bytes: the IV with the
parameter block (digest length `nn`, fanout 1, depth 1) folded into word 0. -/
def initH (nn : Nat) : List Nat :=
  IV.set 0 (IV.getD 0 0 ^^^ (0x01010000 ^^^ nn))

/-- Split a message into 128-byte blocks; the final block may be short
(or empty, for the empty message).  The first argument is fuel, a bound
on the number of blocks, so that the recursion is structural; each step
removes 128 bytes, so `bs.length` is always enough fuel. -/
def toBlocksF : Nat → List Nat → List (List Nat)
  | 0, bs => [bs]
  | fuel + 1, bs =>
    if bs.length ≤ 128 then [bs]
    else bs.take 128 :: toBlocksF fuel (bs.drop 128)

/-- Split a message into 128-byte blocks. -/
def toBlocks (bs : List Nat) : List (List Nat) :=
  toBlocksF bs.length bs

/-- Run the compression function over the blocks; `done` counts the
bytes already compressed, so the counter `t` of a non-final block is
`done + 128` and of the final block the total message length. -/
def processBlocks (h : List Nat) : List (List Nat) → Nat → List Nat
  | [], _ => h
  | [b], done => compress h (bytesToWords b) (done + b.length) true
  | b :: b2 :: bs, done => processBlocks (compress h (bytesToWords b) (done + 128) false) (b2 :: bs) (done + 128)

/-- Blake2b digest of `input` with digest length `nn` bytes (unkeyed). -/
def blake2b (nn : Nat) (input : List Nat) : List Nat :=
  (wordsToBytes (processBlocks (initH nn) (toBlocks input) 0)).take nn

/-! ### The library's private `hash` helper and public `subnet`
(src/lib.rs lines 79-87) -/

/-- `fn hash(name, len)`: Blake2b with `len` output bytes over the bytes
of `name`, rendered as lowercase hex (`result_str`). -/
def hash (name : List Nat) (len : Nat) : List Char :=
  ((blake2b len name).map byteHex).flatten

/-- `pub fn subnet(name)`: `hash(name, 2)` (src/lib.rs line 79). -/
def subnet (name : List Nat) : List Char :=
  hash name 2

/-! ### Model of the `std` IPv6 address text parser

`Ipv6Addr::from_str` as the library exercises it: eight colon-separated
groups of 1-4 hex digits, with a single `::` standing for the missing
run of zero groups.  (IPv4-embedded trailing forms are outside the
model.)  The result is the list of the eight 16-bit segments. -/

/-- Is `c` an ASCII hex digit (either case), as accepted by the group
parser? -/
def isHexDigitChar (c : Char) : Bool :=
  decide ((48 ≤ c.toNat ∧ c.toNat ≤ 57) ∨ (97 ≤ c.toNat ∧ c.toNat ≤ 102) ∨
    (65 ≤ c.toNat ∧ c.toNat ≤ 70))

/-- Numeric value of a hex digit character. -/
def hexDigitVal (c : Char) : Nat :=
  if c.toNat ≤ 57 then c.toNat - 48
  else if c.toNat ≤ 70 then c.toNat - 55
  else c.toNat - 87

/-- Value of a group of hex digits, most significant first. -/
def hexVal (g : List Char) : Nat :=
  g.foldl (fun a c => a * 16 + hexDigitVal c) 0

/-- Split on a separator character, keeping empty pieces (like Rust's
`str::split`). -/
def splitOnChar (sep : Char) : List Char → List (List Char)
  | [] => [[]]
  | c :: rest =>
    if c = sep then [] :: splitOnChar sep rest
    else
      match splitOnChar sep rest with
      | [] => [[c]]
      | g :: gs => (c :: g) :: gs

/-- Parse one group: 1-4 hex digits. -/
def parseGroup (g : List Char) : Option Nat :=
  if g ≠ [] ∧ g.length ≤ 4 ∧ g.all isHexDigitChar then some (hexVal g) else none

/-- Parse every group of a list, failing if any fails. -/
def traverseGroups : List (List Char) → Option (List Nat)
  | [] => some []
  | g :: gs =>
    match parseGroup g, traverseGroups gs with
    | some n, some ns => some (n :: ns)
    | _, _ => none

/-- Parse a (possibly empty) run of colon-separated groups. -/
def parseGroups (s : List Char) : Option (List Nat) :=
  if s = [] then some [] else traverseGroups (splitOnChar ':' s)

/-- Locate the first `::`, returning the text before and after it. -/
def findDC : List Char → Option (List Char × List Char)
  | [] => none
  | [_] => none
  | c :: d :: rest =>
    if c = ':' ∧ d = ':' then some ([], rest)
    else (findDC (d :: rest)).map (fun p => (c :: p.1, p.2))

/-- Model of `Ipv6Addr::from_str`: either eight plain groups, or a
`::`-compressed form whose explicit groups number at most seven, the
gap filled with zero segments. -/
def parseIpv6 (s : List Char) : Option (List Nat) :=
  match findDC s with
  | none =>
    match parseGroups s with
    | some gs => if gs.length = 8 then some gs else none
    | none => none
  | some (l, r) =>
    match parseGroups l, parseGroups r with
    | some gl, some gr =>
      if gl.length + gr.length ≤ 7 then
        some (gl ++ List.replicate (8 - (gl.length + gr.length)) 0 ++ gr)
      else none
    | _, _ => none

/-! ### Model of the `ipnetwork` crate's `Ipv6Network` -/

/-- A parsed IPv6 network: the base address (eight 16-bit segments, as
`Ipv6Addr::segments()` returns them) and the network size in bits
(`Ipv6Network::prefix()`, a `u8` at most 128). -/
structure Ipv6Network where
  segments : List Nat
  prefixLen : Nat
deriving DecidableEq

/-- The `ipnetwork` crate's error enum, carrying the same data the crate
interpolates into its diagnostics. -/
inductive IpNetworkError where
  | invalidAddr (s : List Char)
  | invalidPrefix
  | invalidCidrFormat (s : List Char)
deriving DecidableEq

/-- `u8::from_str`: optional `+` sign, then decimal digits, value below
256. -/
def parseU8 (s : List Char) : Option Nat :=
  let t := if s.head? = some '+' then s.tail else s
  if t ≠ [] ∧ t.all Char.isDigit then
    let v := t.foldl (fun a c => a * 10 + (c.toNat - 48)) 0
    if v < 256 then some v else none
  else none

/-- The crate's `cidr_parts`: the text must contain exactly one `/`. -/
def cidrParts (s : List Char) : Except IpNetworkError (List Char × List Char) :=
  match splitOnChar '/' s with
  | [a, p] => .ok (a, p)
  | _ => .error (.invalidCidrFormat s)

/-- The crate's `parse_prefix` with `max = 128`. -/
def parsePrefixLen (s : List Char) : Except IpNetworkError Nat :=
  match parseU8 s with
  | some v => if v ≤ 128 then .ok v else .error .invalidPrefix
  | none => .error .invalidPrefix

/-- Model of `Ipv6Network::from_str`: split at `/`, parse the address,
then the network size. -/
def Ipv6Network.from_str (s : List Char) : Except IpNetworkError Ipv6Network :=
  match cidrParts s with
  | .error e => .error e
  | .ok (a, p) =>
    match parseIpv6 a with
    | none => .error (.invalidAddr a)
    | some segs =>
      match parsePrefixLen p with
      | .error e => .error e
      | .ok pl => .ok ⟨segs, pl⟩

/-! ### The generator itself (src/lib.rs lines 14-76) -/

/-- The errors `ip`/`ip6` return.  The Rust code returns `format!`ted
strings; each constructor carries exactly the values interpolated into
the corresponding message. -/
inductive GenError where
  | invalidNetwork (e : IpNetworkError)
  | alreadyFullAddress (segments : List Nat) (prefixLen : Nat)
  | assemblyError (s : List Char)
deriving DecidableEq

/-- Result of a call to the generator.  `panic` models an out-of-range
Rust slice `&s[a..b]`. -/
inductive Outcome where
  | ok (addr : List Nat)
  | err (e : GenError)
  | panic
deriving DecidableEq

/-- Rust slice `&s[a..b]`: defined when `a ≤ b ≤ s.len()`, a panic
otherwise. -/
def slice (s : List Char) (a b : Nat) : Option (List Char) :=
  if a ≤ b ∧ b ≤ s.length then some ((s.drop a).take (b - a)) else none

/-- Line 33: `let network_len = net.prefix() as usize / 4;`. -/
def network_len (p : Nat) : Nat :=
  p / 4

/-- Line 49: `let address_len = 32 - network_len;`. -/
def address_len (p : Nat) : Nat :=
  32 - network_len p

/-- Lines 53-57: `address_len / 2`, incremented when `address_len` is
odd (`hash_is_bigger`). -/
def blake_len (p : Nat) : Nat :=
  if address_len p % 2 ≠ 0 then address_len p / 2 + 1 else address_len p / 2

/-- Lines 65-76 of src/lib.rs: cut the eight 4-digit groups
`&ip_hash[0..4]` through `&ip_hash[28..32]` out of the concatenated
string, join them with `:` and re-parse the result defensively. -/
def regroupAndParse (ip_hash : List Char) : Outcome :=
  match slice ip_hash 0 4, slice ip_hash 4 8, slice ip_hash 8 12, slice ip_hash 12 16,
    slice ip_hash 16 20, slice ip_hash 20 24, slice ip_hash 24 28, slice ip_hash 28 32 with
  | some g0, some g1, some g2, some g3, some g4, some g5, some g6, some g7 =>
    let joined := g0 ++ ':' :: (g1 ++ ':' :: (g2 ++ ':' :: (g3 ++ ':' :: (g4 ++ ':' ::
      (g5 ++ ':' :: (g6 ++ ':' :: g7))))))
    match parseIpv6 joined with
    | some addr => .ok addr
    | none => .err (.assemblyError joined)
  | _, _, _, _, _, _, _, _ => .panic

/-- `fn ip6(name, net)` (src/lib.rs lines 30-76), step by step:
expand the segments to 32 hex digits, slice off the first `network_len`
digits, hash the name with `blake_len` output bytes, append the digest
rendering (the line-60 slice `&hash[..hash.len()]` is the whole string),
then regroup and re-parse. -/
def ip6 (name : List Nat) (net : Ipv6Network) : Outcome :=
  let ip_hash := hexExpand net.segments
  match slice ip_hash 0 (network_len net.prefixLen) with
  | none => .panic
  | some network_hash =>
    let h := hash name (blake_len net.prefixLen)
    let address_hash := if address_len net.prefixLen % 2 ≠ 0 then h.take h.length else h
    regroupAndParse (network_hash ++ address_hash)

/-- `pub fn ip(name, cidr)` (src/lib.rs lines 14-28): parse the CIDR,
reject a 128-bit network size, otherwise generate. -/
def ip (name : List Nat) (cidr : List Char) : Outcome :=
  match Ipv6Network.from_str cidr with
  | .error e => .err (.invalidNetwork e)
  | .ok net =>
    if net.prefixLen = 128 then .err (.alreadyFullAddress net.segments net.prefixLen)
    else ip6 name net

/-- The intermediate concatenation `let ip_hash = format!("\x7b\x7d\x7b\x7d",
network_hash, address_hash)` of src/lib.rs line 64: the network region
followed by the full rendering of the digest. -/
def concatRegions (name : List Nat) (net : Ipv6Network) : List Char :=
  let network_hash := (hexExpand net.segments).take (network_len net.prefixLen)
  let h := hash name (blake_len net.prefixLen)
  let address_hash := if address_len net.prefixLen % 2 ≠ 0 then h.take h.length else h
  network_hash ++ address_hash

/-- The eight group values the regrouping stage reads out of the
concatenated string `L`: the slices `[0..4]` through `[28..32]`,
interpreted as 16-bit segment values. -/
def groupVals (L : List Char) : List Nat :=
  [hexVal (L.take 4), hexVal ((L.drop 4).take 4), hexVal ((L.drop 8).take 4),
   hexVal ((L.drop 12).take 4), hexVal ((L.drop 16).take 4), hexVal ((L.drop 20).take 4),
   hexVal ((L.drop 24).take 4), hexVal ((L.drop 28).take 4)]

/-- A character is a lowercase hex digit image. -/
def LHex (c : Char) : Prop :=
  ∃ n, n < 16 ∧ c = hexChar n

/-! ### Concrete inputs used by the closed witnesses below -/

/-- The byte string of the name `"x"`. -/
def wName : List Nat :=
  [120]

/-- The CIDR text `"fd52:f6b0:3162::/48"`. -/
def wCidr : List Char :=
  ("fd52:f6b0:3162::/48").data

/-- The network that text parses to. -/
def wNet : Ipv6Network :=
  ⟨[0xfd52, 0xf6b0, 0x3162, 0, 0, 0, 0, 0], 48⟩

/-- The CIDR text `"fd52:f6b0:3162::/128"`. -/
def wCidr128 : List Char :=
  ("fd52:f6b0:3162::/128").data

/-- The network that text parses to. -/
def wNet128 : Ipv6Network :=
  ⟨[0xfd52, 0xf6b0, 0x3162, 0, 0, 0, 0, 0], 128⟩

/-- A text that is not CIDR notation at all. -/
def wBad : List Char :=
  ("not-a-cidr").data

/-! ### Basic facts about the hex rendering -/

theorem hexChar_facts : ∀ n < 16, isHexDigitChar (hexChar n) = true ∧
    hexDigitVal (hexChar n) = n ∧ hexChar n ≠ ':' := by decide

theorem LHex.isHexDigit {c : Char} (h : LHex c) : isHexDigitChar c = true := by
  obtain ⟨n, hn, rfl⟩ := h
  exact (hexChar_facts n hn).1

theorem LHex.val {c : Char} (h : LHex c) : ∃ n, n < 16 ∧ c = hexChar n ∧ hexDigitVal c = n := by
  obtain ⟨n, hn, rfl⟩ := h
  exact ⟨n, hn, rfl, (hexChar_facts n hn).2.1⟩

theorem LHex.ne_colon {c : Char} (h : LHex c) : c ≠ ':' := by
  obtain ⟨n, hn, rfl⟩ := h
  exact (hexChar_facts n hn).2.2

theorem lhex_format04x {c : Char} {b : Nat} (h : c ∈ format04x b) : LHex c := by
  simp only [format04x, List.mem_cons, List.not_mem_nil, or_false] at h
  rcases h with h | h | h | h <;>
    exact ⟨_, Nat.mod_lt _ (by norm_num), h⟩

theorem lhex_byteHex {c : Char} {b : Nat} (h : c ∈ byteHex b) : LHex c := by
  simp only [byteHex, List.mem_cons, List.not_mem_nil, or_false] at h
  rcases h with h | h <;>
    exact ⟨_, Nat.mod_lt _ (by norm_num), h⟩

theorem lhex_hexExpand {c : Char} {segs : List Nat} (h : c ∈ hexExpand segs) : LHex c := by
  simp only [hexExpand, List.mem_flatten, List.mem_map] at h
  obtain ⟨l, ⟨b, _, rfl⟩, hc⟩ := h
  exact lhex_format04x hc

theorem lhex_hash {c : Char} {name : List Nat} {len : Nat} (h : c ∈ hash name len) : LHex c := by
  simp only [hash, List.mem_flatten, List.mem_map] at h
  obtain ⟨l, ⟨b, _, rfl⟩, hc⟩ := h
  exact lhex_byteHex hc

theorem hexExpand_length (segs : List Nat) : (hexExpand segs).length = 4 * segs.length := by
  induction segs with
  | nil => rfl
  | cons b t ih =>
    simp only [hexExpand, List.map_cons, List.flatten_cons, List.length_append,
      List.length_cons] at ih ⊢
    simp [format04x, ih]
    ring

/-! ### Digest lengths -/

theorem initH_length (nn : Nat) : (initH nn).length = 8 := by
  simp [initH, IV]

theorem compress_length (h m : List Nat) (t : Nat) (last : Bool) :
    (compress h m t last).length = 8 := by
  simp [compress]

theorem processBlocks_length (bls : List (List Nat)) (h : List Nat) (done : Nat)
    (hh : h.length = 8) : (processBlocks h bls done).length = 8 := by
  induction bls generalizing h done with
  | nil => exact hh
  | cons b rest ih =>
    cases rest with
    | nil => exact compress_length ..
    | cons b2 rest2 => exact ih _ _ (compress_length ..)

theorem wordsToBytes_length (ws : List Nat) : (wordsToBytes ws).length = 8 * ws.length := by
  induction ws with
  | nil => rfl
  | cons w t ih =>
    simp only [wordsToBytes, List.map_cons, List.flatten_cons, List.length_append,
      List.length_cons] at ih ⊢
    simp [ih]
    ring

theorem blake2b_length (nn : Nat) (input : List Nat) :
    (blake2b nn input).length = min nn 64 := by
  simp [blake2b, wordsToBytes_length, processBlocks_length _ _ _ (initH_length nn)]

theorem hash_length (name : List Nat) (len : Nat) :
    (hash name len).length = 2 * min len 64 := by
  have key : ∀ bs : List Nat, ((bs.map byteHex).flatten).length = 2 * bs.length := by
    intro bs
    induction bs with
    | nil => rfl
    | cons b t ih =>
      simp only [List.map_cons, List.flatten_cons, List.length_append, List.length_cons, ih]
      simp [byteHex]
      ring
  simp [hash, key, blake2b_length]

theorem hash_length_small (name : List Nat) {len : Nat} (h : len ≤ 64) :
    (hash name len).length = 2 * len := by
  rw [hash_length, Nat.min_eq_left h]

/-! ### Roundtrips between group values and their hex renderings -/

theorem hexVal_format04x {b : Nat} (hb : b < 65536) : hexVal (format04x b) = b := by
  have h3 := (hexChar_facts (b / 4096 % 16) (Nat.mod_lt _ (by norm_num))).2.1
  have h2 := (hexChar_facts (b / 256 % 16) (Nat.mod_lt _ (by norm_num))).2.1
  have h1 := (hexChar_facts (b / 16 % 16) (Nat.mod_lt _ (by norm_num))).2.1
  have h0 := (hexChar_facts (b % 16) (Nat.mod_lt _ (by norm_num))).2.1
  simp only [format04x, hexVal, List.foldl_cons, List.foldl_nil, h3, h2, h1, h0]
  omega

theorem format04x_parts {n3 n2 n1 n0 : Nat} (h3 : n3 < 16) (h2 : n2 < 16)
    (h1 : n1 < 16) (h0 : n0 < 16) :
    format04x ((((0 * 16 + n3) * 16 + n2) * 16 + n1) * 16 + n0) =
      [hexChar n3, hexChar n2, hexChar n1, hexChar n0] := by
  unfold format04x
  have e3 : ((((0 * 16 + n3) * 16 + n2) * 16 + n1) * 16 + n0) / 4096 % 16 = n3 := by omega
  have e2 : ((((0 * 16 + n3) * 16 + n2) * 16 + n1) * 16 + n0) / 256 % 16 = n2 := by omega
  have e1 : ((((0 * 16 + n3) * 16 + n2) * 16 + n1) * 16 + n0) / 16 % 16 = n1 := by omega
  have e0 : ((((0 * 16 + n3) * 16 + n2) * 16 + n1) * 16 + n0) % 16 = n0 := by omega
  rw [e3, e2, e1, e0]

theorem format04x_hexVal {c3 c2 c1 c0 : Char} (h3 : LHex c3) (h2 : LHex c2)
    (h1 : LHex c1) (h0 : LHex c0) :
    format04x (hexVal [c3, c2, c1, c0]) = [c3, c2, c1, c0] := by
  obtain ⟨n3, hn3, rfl, hv3⟩ := h3.val
  obtain ⟨n2, hn2, rfl, hv2⟩ := h2.val
  obtain ⟨n1, hn1, rfl, hv1⟩ := h1.val
  obtain ⟨n0, hn0, rfl, hv0⟩ := h0.val
  simp only [hexVal, List.foldl_cons, List.foldl_nil, hv3, hv2, hv1, hv0]
  exact format04x_parts hn3 hn2 hn1 hn0

theorem hexVal_lt {g : List Char} (hlen : g.length ≤ 4)
    (hhex : ∀ c ∈ g, isHexDigitChar c = true) : hexVal g < 65536 := by
  have digit_lt : ∀ c, isHexDigitChar c = true → hexDigitVal c < 16 := by
    intro c hc
    have := of_decide_eq_true hc
    unfold hexDigitVal
    split <;> [skip; split] <;> omega
  have key : ∀ (g : List Char) (a : Nat), (∀ c ∈ g, isHexDigitChar c = true) →
      g.foldl (fun a c => a * 16 + hexDigitVal c) a < (a + 1) * 16 ^ g.length := by
    intro g
    induction g with
    | nil => intro a _; simp
    | cons c t ih =>
      intro a hg
      simp only [List.foldl_cons, List.length_cons]
      have hd := digit_lt c (hg c (List.mem_cons_self c t))
      calc t.foldl (fun a c => a * 16 + hexDigitVal c) (a * 16 + hexDigitVal c)
          < (a * 16 + hexDigitVal c + 1) * 16 ^ t.length :=
            ih _ (fun x hx => hg x (List.mem_cons_of_mem c hx))
        _ ≤ (a + 1) * 16 ^ (t.length + 1) := by
            rw [pow_succ]
            have : a * 16 + hexDigitVal c + 1 ≤ (a + 1) * 16 := by omega
            calc (a * 16 + hexDigitVal c + 1) * 16 ^ t.length
                ≤ ((a + 1) * 16) * 16 ^ t.length := Nat.mul_le_mul_right _ this
              _ = (a + 1) * (16 ^ t.length * 16) := by ring
  have := key g 0 hhex
  have hpow : (16 : Nat) ^ g.length ≤ 16 ^ 4 := Nat.pow_le_pow_right (by norm_num) hlen
  simp only [hexVal]
  calc g.foldl (fun a c => a * 16 + hexDigitVal c) 0 < (0 + 1) * 16 ^ g.length := this
    _ ≤ 65536 := by simpa using hpow

/-! ### Behaviour of the parser model on colon-joined hex groups -/

theorem splitOnChar_no_sep {sep : Char} {g : List Char} (hg : ∀ c ∈ g, c ≠ sep) :
    splitOnChar sep g = [g] := by
  induction g with
  | nil => rfl
  | cons c t ih =>
    have hc : c ≠ sep := hg c (List.mem_cons_self c t)
    have ht := ih (fun x hx => hg x (List.mem_cons_of_mem c hx))
    simp [splitOnChar, hc, ht]

theorem splitOnChar_append {sep : Char} {g rest : List Char} (hg : ∀ c ∈ g, c ≠ sep) :
    splitOnChar sep (g ++ sep :: rest) = g :: splitOnChar sep rest := by
  induction g with
  | nil => simp [splitOnChar]
  | cons c t ih =>
    have hc : c ≠ sep := hg c (List.mem_cons_self c t)
    have ht := ih (fun x hx => hg x (List.mem_cons_of_mem c hx))
    simp [splitOnChar, hc, ht]

theorem findDC_no_colon {g : List Char} (hg : ∀ c ∈ g, c ≠ ':') : findDC g = none := by
  induction g with
  | nil => rfl
  | cons c t ih =>
    cases t with
    | nil => rfl
    | cons d r =>
      have hc : c ≠ ':' := hg c (List.mem_cons_self ..)
      have ht : findDC (d :: r) = none := ih (fun x hx => hg x (List.mem_cons_of_mem c hx))
      simp [findDC, hc, ht]

theorem findDC_append {g s : List Char} (hg : ∀ c ∈ g, c ≠ ':')
    (hs : findDC s = none) (hhead : ∀ d, s.head? = some d → d ≠ ':') :
    findDC (g ++ ':' :: s) = none := by
  induction g with
  | nil =>
    cases s with
    | nil => rfl
    | cons d r =>
      have hd : d ≠ ':' := hhead d rfl
      simp [findDC, hd, hs]
  | cons c t ih =>
    have hc : c ≠ ':' := hg c (List.mem_cons_self ..)
    have ht : findDC (t ++ ':' :: s) = none := ih (fun x hx => hg x (List.mem_cons_of_mem c hx))
    cases t with
    | nil => simpa [findDC, hc] using congrArg (Option.map (fun p => (c :: p.1, p.2))) ht
    | cons c2 t2 =>
      simp only [List.cons_append] at ht
      simp [findDC, hc, ht]

theorem head_ne_colon {g t : List Char} (hne : g ≠ []) (hcol : ∀ c ∈ g, c ≠ ':') :
    ∀ d, (g ++ t).head? = some d → d ≠ ':' := by
  cases g with
  | nil => exact absurd rfl hne
  | cons a r =>
    intro d hd
    simp only [List.cons_append, List.head?_cons, Option.some.injEq] at hd
    exact hd ▸ hcol a (List.mem_cons_self ..)

theorem parseGroup_lhex {g : List Char} (hlen : g.length = 4) (hhex : ∀ c ∈ g, LHex c) :
    parseGroup g = some (hexVal g) := by
  unfold parseGroup
  rw [if_pos]
  refine ⟨?_, by omega, ?_⟩
  · intro h
    rw [h] at hlen
    simp at hlen
  · rw [List.all_eq_true]
    exact fun c hc => (hhex c hc).isHexDigit

theorem head_ne_colon_plain {g : List Char} (hne : g ≠ []) (hcol : ∀ c ∈ g, c ≠ ':') :
    ∀ d, g.head? = some d → d ≠ ':' := by
  cases g with
  | nil => exact absurd rfl hne
  | cons a r =>
    intro d hd
    simp only [List.head?_cons, Option.some.injEq] at hd
    exact hd ▸ hcol a (List.mem_cons_self ..)

theorem format04x_hexVal_len4 {g : List Char} (hlen : g.length = 4) (hhex : ∀ c ∈ g, LHex c) :
    format04x (hexVal g) = g := by
  rcases g with _ | ⟨a, _ | ⟨b, _ | ⟨c, _ | ⟨d, _ | ⟨e, t⟩⟩⟩⟩⟩
  · simp at hlen
  · simp at hlen
  · simp at hlen
  · simp at hlen
  · exact format04x_hexVal (hhex a (by simp)) (hhex b (by simp)) (hhex c (by simp))
      (hhex d (by simp))
  · simp only [List.length_cons] at hlen
    omega

theorem parseIpv6_joined {g0 g1 g2 g3 g4 g5 g6 g7 : List Char}
    (l0 : g0.length = 4) (x0 : ∀ c ∈ g0, LHex c)
    (l1 : g1.length = 4) (x1 : ∀ c ∈ g1, LHex c)
    (l2 : g2.length = 4) (x2 : ∀ c ∈ g2, LHex c)
    (l3 : g3.length = 4) (x3 : ∀ c ∈ g3, LHex c)
    (l4 : g4.length = 4) (x4 : ∀ c ∈ g4, LHex c)
    (l5 : g5.length = 4) (x5 : ∀ c ∈ g5, LHex c)
    (l6 : g6.length = 4) (x6 : ∀ c ∈ g6, LHex c)
    (l7 : g7.length = 4) (x7 : ∀ c ∈ g7, LHex c) :
    parseIpv6 (g0 ++ ':' :: (g1 ++ ':' :: (g2 ++ ':' :: (g3 ++ ':' :: (g4 ++ ':' ::
      (g5 ++ ':' :: (g6 ++ ':' :: g7))))))) =
    some [hexVal g0, hexVal g1, hexVal g2, hexVal g3, hexVal g4, hexVal g5, hexVal g6,
      hexVal g7] := by
  have ne0 : g0 ≠ [] := by intro h; rw [h] at l0; simp at l0
  have ne1 : g1 ≠ [] := by intro h; rw [h] at l1; simp at l1
  have ne2 : g2 ≠ [] := by intro h; rw [h] at l2; simp at l2
  have ne3 : g3 ≠ [] := by intro h; rw [h] at l3; simp at l3
  have ne4 : g4 ≠ [] := by intro h; rw [h] at l4; simp at l4
  have ne5 : g5 ≠ [] := by intro h; rw [h] at l5; simp at l5
  have ne6 : g6 ≠ [] := by intro h; rw [h] at l6; simp at l6
  have ne7 : g7 ≠ [] := by intro h; rw [h] at l7; simp at l7
  have c0 : ∀ c ∈ g0, c ≠ ':' := fun c hc => (x0 c hc).ne_colon
  have c1 : ∀ c ∈ g1, c ≠ ':' := fun c hc => (x1 c hc).ne_colon
  have c2 : ∀ c ∈ g2, c ≠ ':' := fun c hc => (x2 c hc).ne_colon
  have c3 : ∀ c ∈ g3, c ≠ ':' := fun c hc => (x3 c hc).ne_colon
  have c4 : ∀ c ∈ g4, c ≠ ':' := fun c hc => (x4 c hc).ne_colon
  have c5 : ∀ c ∈ g5, c ≠ ':' := fun c hc => (x5 c hc).ne_colon
  have c6 : ∀ c ∈ g6, c ≠ ':' := fun c hc => (x6 c hc).ne_colon
  have c7 : ∀ c ∈ g7, c ≠ ':' := fun c hc => (x7 c hc).ne_colon
  have fd7 : findDC g7 = none := findDC_no_colon c7
  have fd6 : findDC (g6 ++ ':' :: g7) = none :=
    findDC_append c6 fd7 (head_ne_colon_plain ne7 c7)
  have fd5 : findDC (g5 ++ ':' :: (g6 ++ ':' :: g7)) = none :=
    findDC_append c5 fd6 (head_ne_colon ne6 c6)
  have fd4 : findDC (g4 ++ ':' :: (g5 ++ ':' :: (g6 ++ ':' :: g7))) = none :=
    findDC_append c4 fd5 (head_ne_colon ne5 c5)
  have fd3 : findDC (g3 ++ ':' :: (g4 ++ ':' :: (g5 ++ ':' :: (g6 ++ ':' :: g7)))) = none :=
    findDC_append c3 fd4 (head_ne_colon ne4 c4)
  have fd2 : findDC (g2 ++ ':' :: (g3 ++ ':' :: (g4 ++ ':' :: (g5 ++ ':' ::
      (g6 ++ ':' :: g7))))) = none :=
    findDC_append c2 fd3 (head_ne_colon ne3 c3)
  have fd1 : findDC (g1 ++ ':' :: (g2 ++ ':' :: (g3 ++ ':' :: (g4 ++ ':' :: (g5 ++ ':' ::
      (g6 ++ ':' :: g7)))))) = none :=
    findDC_append c1 fd2 (head_ne_colon ne2 c2)
  have fd0 : findDC (g0 ++ ':' :: (g1 ++ ':' :: (g2 ++ ':' :: (g3 ++ ':' :: (g4 ++ ':' ::
      (g5 ++ ':' :: (g6 ++ ':' :: g7))))))) = none :=
    findDC_append c0 fd1 (head_ne_colon ne1 c1)
  have sp7 : splitOnChar ':' g7 = [g7] := splitOnChar_no_sep c7
  have sp6 : splitOnChar ':' (g6 ++ ':' :: g7) = [g6, g7] := by
    rw [splitOnChar_append c6, sp7]
  have sp5 : splitOnChar ':' (g5 ++ ':' :: (g6 ++ ':' :: g7)) = [g5, g6, g7] := by
    rw [splitOnChar_append c5, sp6]
  have sp4 : splitOnChar ':' (g4 ++ ':' :: (g5 ++ ':' :: (g6 ++ ':' :: g7))) =
      [g4, g5, g6, g7] := by
    rw [splitOnChar_append c4, sp5]
  have sp3 : splitOnChar ':' (g3 ++ ':' :: (g4 ++ ':' :: (g5 ++ ':' :: (g6 ++ ':' :: g7)))) =
      [g3, g4, g5, g6, g7] := by
    rw [splitOnChar_append c3, sp4]
  have sp2 : splitOnChar ':' (g2 ++ ':' :: (g3 ++ ':' :: (g4 ++ ':' :: (g5 ++ ':' ::
      (g6 ++ ':' :: g7))))) = [g2, g3, g4, g5, g6, g7] := by
    rw [splitOnChar_append c2, sp3]
  have sp1 : splitOnChar ':' (g1 ++ ':' :: (g2 ++ ':' :: (g3 ++ ':' :: (g4 ++ ':' ::
      (g5 ++ ':' :: (g6 ++ ':' :: g7)))))) = [g1, g2, g3, g4, g5, g6, g7] := by
    rw [splitOnChar_append c1, sp2]
  have sp0 : splitOnChar ':' (g0 ++ ':' :: (g1 ++ ':' :: (g2 ++ ':' :: (g3 ++ ':' ::
      (g4 ++ ':' :: (g5 ++ ':' :: (g6 ++ ':' :: g7))))))) =
      [g0, g1, g2, g3, g4, g5, g6, g7] := by
    rw [splitOnChar_append c0, sp1]
  have tg : traverseGroups [g0, g1, g2, g3, g4, g5, g6, g7] =
      some [hexVal g0, hexVal g1, hexVal g2, hexVal g3, hexVal g4, hexVal g5, hexVal g6,
        hexVal g7] := by
    simp [traverseGroups, parseGroup_lhex l0 x0, parseGroup_lhex l1 x1, parseGroup_lhex l2 x2,
      parseGroup_lhex l3 x3, parseGroup_lhex l4 x4, parseGroup_lhex l5 x5,
      parseGroup_lhex l6 x6, parseGroup_lhex l7 x7]
  have hne : g0 ++ ':' :: (g1 ++ ':' :: (g2 ++ ':' :: (g3 ++ ':' :: (g4 ++ ':' ::
      (g5 ++ ':' :: (g6 ++ ':' :: g7)))))) ≠ [] := by
    cases g0 with
    | nil => exact absurd rfl ne0
    | cons a r => simp
  have hpg : parseGroups (g0 ++ ':' :: (g1 ++ ':' :: (g2 ++ ':' :: (g3 ++ ':' :: (g4 ++ ':' ::
      (g5 ++ ':' :: (g6 ++ ':' :: g7))))))) =
      some [hexVal g0, hexVal g1, hexVal g2, hexVal g3, hexVal g4, hexVal g5, hexVal g6,
        hexVal g7] := by
    rw [parseGroups, if_neg hne, sp0, tg]
  simp [parseIpv6, fd0, hpg]

/-! ### The assembly stage on an arbitrary in-range hex string -/

theorem slice_in_range {s : List Char} {a b : Nat} (hab : a ≤ b) (hb : b ≤ s.length) :
    slice s a b = some ((s.drop a).take (b - a)) := by
  unfold slice
  rw [if_pos ⟨hab, hb⟩]

theorem regroupAndParse_ok (L : List Char) (h32 : 32 ≤ L.length)
    (hhex : ∀ c ∈ L, LHex c) : regroupAndParse L = Outcome.ok (groupVals L) := by
  have glen : ∀ k : Nat, k + 4 ≤ 32 → ((L.drop k).take 4).length = 4 := by
    intro k hk
    simp only [List.length_take, List.length_drop]
    omega
  have ghex : ∀ k : Nat, ∀ c ∈ (L.drop k).take 4, LHex c := fun k c hc =>
    hhex c (List.mem_of_mem_drop (List.mem_of_mem_take hc))
  have s0 : slice L 0 4 = some (L.take 4) := by
    rw [slice_in_range (by norm_num) (by omega)]
    norm_num
  have s1 : slice L 4 8 = some ((L.drop 4).take 4) := by
    rw [slice_in_range (by norm_num) (by omega)]
  have s2 : slice L 8 12 = some ((L.drop 8).take 4) := by
    rw [slice_in_range (by norm_num) (by omega)]
  have s3 : slice L 12 16 = some ((L.drop 12).take 4) := by
    rw [slice_in_range (by norm_num) (by omega)]
  have s4 : slice L 16 20 = some ((L.drop 16).take 4) := by
    rw [slice_in_range (by norm_num) (by omega)]
  have s5 : slice L 20 24 = some ((L.drop 20).take 4) := by
    rw [slice_in_range (by norm_num) (by omega)]
  have s6 : slice L 24 28 = some ((L.drop 24).take 4) := by
    rw [slice_in_range (by norm_num) (by omega)]
  have s7 : slice L 28 32 = some ((L.drop 28).take 4) := by
    rw [slice_in_range (by norm_num) (by omega)]
  have g0len : (L.take 4).length = 4 := by
    simp only [List.length_take]
    omega
  have hparse := parseIpv6_joined
    g0len (fun c hc => hhex c (List.mem_of_mem_take hc))
    (glen 4 (by norm_num)) (ghex 4)
    (glen 8 (by norm_num)) (ghex 8)
    (glen 12 (by norm_num)) (ghex 12)
    (glen 16 (by norm_num)) (ghex 16)
    (glen 20 (by norm_num)) (ghex 20)
    (glen 24 (by norm_num)) (ghex 24)
    (glen 28 (by norm_num)) (ghex 28)
  simp only [regroupAndParse, s0, s1, s2, s3, s4, s5, s6, s7, hparse, groupVals]

/-- Re-expanding the eight parsed groups reproduces the first 32
characters of the concatenated string. -/
theorem hexExpand_groupVals (L : List Char) (h32 : 32 ≤ L.length)
    (hhex : ∀ c ∈ L, LHex c) : hexExpand (groupVals L) = L.take 32 := by
  have glen : ∀ k : Nat, k + 4 ≤ 32 → ((L.drop k).take 4).length = 4 := by
    intro k hk
    simp only [List.length_take, List.length_drop]
    omega
  have ghex : ∀ k : Nat, ∀ c ∈ (L.drop k).take 4, LHex c := fun k c hc =>
    hhex c (List.mem_of_mem_drop (List.mem_of_mem_take hc))
  have f0 : format04x (hexVal (L.take 4)) = L.take 4 :=
    format04x_hexVal_len4 (by simpa using glen 0 (by norm_num))
      (fun c hc => hhex c (List.mem_of_mem_take hc))
  have f1 := format04x_hexVal_len4 (glen 4 (by norm_num)) (ghex 4)
  have f2 := format04x_hexVal_len4 (glen 8 (by norm_num)) (ghex 8)
  have f3 := format04x_hexVal_len4 (glen 12 (by norm_num)) (ghex 12)
  have f4 := format04x_hexVal_len4 (glen 16 (by norm_num)) (ghex 16)
  have f5 := format04x_hexVal_len4 (glen 20 (by norm_num)) (ghex 20)
  have f6 := format04x_hexVal_len4 (glen 24 (by norm_num)) (ghex 24)
  have f7 := format04x_hexVal_len4 (glen 28 (by norm_num)) (ghex 28)
  have t1 := List.take_add L 4 28
  norm_num at t1
  have t2 := List.take_add (L.drop 4) 4 24
  norm_num at t2
  have t3 := List.take_add (L.drop 8) 4 20
  norm_num at t3
  have t4 := List.take_add (L.drop 12) 4 16
  norm_num at t4
  have t5 := List.take_add (L.drop 16) 4 12
  norm_num at t5
  have t6 := List.take_add (L.drop 20) 4 8
  norm_num at t6
  have t7 := List.take_add (L.drop 24) 4 4
  norm_num at t7
  simp only [groupVals, hexExpand, List.map_cons, List.map_nil, List.flatten_cons,
    List.flatten_nil, List.append_nil, f0, f1, f2, f3, f4, f5, f6, f7]
  rw [t1, t2, t3, t4, t5, t6, t7]

/-! ### The generator on a valid network -/

theorem blake_len_le (p : Nat) : blake_len p ≤ 64 := by
  unfold blake_len address_len network_len
  split <;> omega

theorem concatRegions_eq (name : List Nat) (net : Ipv6Network) :
    concatRegions name net =
      (hexExpand net.segments).take (network_len net.prefixLen) ++
        hash name (blake_len net.prefixLen) := by
  have hif : (if address_len net.prefixLen % 2 ≠ 0
      then (hash name (blake_len net.prefixLen)).take (hash name (blake_len net.prefixLen)).length
      else hash name (blake_len net.prefixLen)) = hash name (blake_len net.prefixLen) := by
    split <;> simp
  simp only [concatRegions, hif]

theorem concatRegions_length (name : List Nat) (net : Ipv6Network)
    (h8 : net.segments.length = 8) :
    (concatRegions name net).length =
      min (network_len net.prefixLen) 32 + 2 * blake_len net.prefixLen := by
  rw [concatRegions_eq]
  simp only [List.length_append, List.length_take, hexExpand_length, h8,
    hash_length_small name (blake_len_le net.prefixLen)]

theorem concatRegions_length_ge (name : List Nat) (net : Ipv6Network)
    (h8 : net.segments.length = 8) :
    32 ≤ (concatRegions name net).length := by
  rw [concatRegions_length name net h8]
  unfold blake_len address_len network_len
  split <;> omega

theorem concatRegions_lhex {name : List Nat} {net : Ipv6Network} :
    ∀ c ∈ concatRegions name net, LHex c := by
  rw [concatRegions_eq]
  intro c hc
  rcases List.mem_append.1 hc with h | h
  · exact lhex_hexExpand (List.mem_of_mem_take h)
  · exact lhex_hash h

theorem ip6_eq_regroup (name : List Nat) (net : Ipv6Network)
    (h8 : net.segments.length = 8) (hp : net.prefixLen < 128) :
    ip6 name net = regroupAndParse (concatRegions name net) := by
  have hnl : network_len net.prefixLen ≤ (hexExpand net.segments).length := by
    rw [hexExpand_length, h8]
    unfold network_len
    omega
  have hs1 : slice (hexExpand net.segments) 0 (network_len net.prefixLen) =
      some ((hexExpand net.segments).take (network_len net.prefixLen)) := by
    rw [slice_in_range (Nat.zero_le _) hnl]
    simp
  simp only [ip6, hs1, concatRegions]

theorem ip6_ok (name : List Nat) (net : Ipv6Network)
    (h8 : net.segments.length = 8) (hp : net.prefixLen < 128) :
    ip6 name net = Outcome.ok (groupVals (concatRegions name net)) ∧
      hexExpand (groupVals (concatRegions name net)) =
        (hexExpand net.segments).take (network_len net.prefixLen) ++
          (hash name (blake_len net.prefixLen)).take (address_len net.prefixLen) := by
  have h32 := concatRegions_length_ge name net h8
  have hhex : ∀ c ∈ concatRegions name net, LHex c := concatRegions_lhex
  have hA : ((hexExpand net.segments).take (network_len net.prefixLen)).length =
      network_len net.prefixLen := by
    simp only [List.length_take, hexExpand_length, h8]
    unfold network_len
    omega
  constructor
  · rw [ip6_eq_regroup name net h8 hp, regroupAndParse_ok _ h32 hhex]
  · rw [hexExpand_groupVals _ h32 hhex, concatRegions_eq,
      List.take_append_eq_append_take,
      List.take_of_length_le (le_trans (le_of_eq hA) (by unfold network_len; omega)), hA]
    rfl

/-! ### Soundness of the parser model: shapes of accepted values -/

theorem parseGroup_lt {g : List Char} {n : Nat} (h : parseGroup g = some n) : n < 65536 := by
  unfold parseGroup at h
  split at h
  · rename_i hcond
    obtain ⟨hne, hlen, hall⟩ := hcond
    injection h with h
    exact h ▸ hexVal_lt hlen (List.all_eq_true.1 hall)
  · exact absurd h (by simp)

theorem traverseGroups_lt {gs : List (List Char)} {ns : List Nat}
    (h : traverseGroups gs = some ns) : ∀ x ∈ ns, x < 65536 := by
  induction gs generalizing ns with
  | nil =>
    unfold traverseGroups at h
    injection h with h
    simp [← h]
  | cons g t ih =>
    unfold traverseGroups at h
    split at h
    · rename_i n ns2 hg ht
      injection h with h
      intro x hx
      rw [← h] at hx
      rcases List.mem_cons.1 hx with rfl | hx2
      · exact parseGroup_lt hg
      · exact ih ht x hx2
    · simp at h

theorem parseGroups_lt {s : List Char} {ns : List Nat} (h : parseGroups s = some ns) :
    ∀ x ∈ ns, x < 65536 := by
  unfold parseGroups at h
  split at h
  · injection h with h
    simp [← h]
  · exact traverseGroups_lt h

theorem parseIpv6_sound {s : List Char} {segs : List Nat} (h : parseIpv6 s = some segs) :
    segs.length = 8 ∧ ∀ x ∈ segs, x < 65536 := by
  unfold parseIpv6 at h
  split at h
  · split at h
    · rename_i gs hpg
      split at h
      · rename_i hlen
        injection h with h
        exact ⟨h ▸ hlen, h ▸ parseGroups_lt hpg⟩
      · simp at h
    · simp at h
  · split at h
    · rename_i l r gl gr hl hr
      split at h
      · rename_i hle
        injection h with h
        constructor
        · rw [← h]
          simp only [List.length_append, List.length_replicate]
          omega
        · intro x hx
          rw [← h] at hx
          rcases List.mem_append.1 hx with hx2 | hx2
          · rcases List.mem_append.1 hx2 with hx3 | hx3
            · exact parseGroups_lt hl x hx3
            · rw [List.eq_of_mem_replicate hx3]
              norm_num
          · exact parseGroups_lt hr x hx2
      · simp at h
    · simp at h

theorem parsePrefixLen_le {s : List Char} {pl : Nat} (h : parsePrefixLen s = .ok pl) :
    pl ≤ 128 := by
  unfold parsePrefixLen at h
  split at h
  · rename_i v hu
    split at h
    · rename_i hv
      injection h with h
      exact h ▸ hv
    · simp at h
  · simp at h

theorem from_str_sound {s : List Char} {net : Ipv6Network}
    (h : Ipv6Network.from_str s = .ok net) :
    net.segments.length = 8 ∧ (∀ x ∈ net.segments, x < 65536) ∧ net.prefixLen ≤ 128 := by
  unfold Ipv6Network.from_str at h
  split at h
  · simp at h
  · rename_i a p
    split at h
    · simp at h
    · rename_i segs hpi
      split at h
      · simp at h
      · rename_i pl hpp
        injection h with h
        obtain ⟨h8, hlt⟩ := parseIpv6_sound hpi
        exact ⟨h ▸ h8, h ▸ hlt, h ▸ parsePrefixLen_le hpp⟩

/-! ### Remaining plumbing lemmas -/

theorem ip_parse_ok {name : List Nat} {cidr : List Char} {net : Ipv6Network}
    (h : Ipv6Network.from_str cidr = .ok net) (hp : net.prefixLen < 128) :
    ip name cidr = ip6 name net := by
  have hne : net.prefixLen ≠ 128 := Nat.ne_of_lt hp
  simp [ip, h, hne]

theorem groupVals_lt (L : List Char) (hhex : ∀ c ∈ L, LHex c) :
    ∀ x ∈ groupVals L, x < 65536 := by
  have hl : ∀ k : Nat, ((L.drop k).take 4).length ≤ 4 := by
    intro k
    rw [List.length_take]
    exact Nat.min_le_left 4 _
  have hh : ∀ k : Nat, ∀ c ∈ (L.drop k).take 4, isHexDigitChar c = true := fun k c hc =>
    (hhex c (List.mem_of_mem_drop (List.mem_of_mem_take hc))).isHexDigit
  have hl0 : (L.take 4).length ≤ 4 := by
    rw [List.length_take]
    exact Nat.min_le_left 4 _
  have hh0 : ∀ c ∈ L.take 4, isHexDigitChar c = true := fun c hc =>
    (hhex c (List.mem_of_mem_take hc)).isHexDigit
  intro x hx
  simp only [groupVals, List.mem_cons, List.not_mem_nil, or_false] at hx
  rcases hx with rfl | rfl | rfl | rfl | rfl | rfl | rfl | rfl
  · exact hexVal_lt hl0 hh0
  · exact hexVal_lt (hl 4) (hh 4)
  · exact hexVal_lt (hl 8) (hh 8)
  · exact hexVal_lt (hl 12) (hh 12)
  · exact hexVal_lt (hl 16) (hh 16)
  · exact hexVal_lt (hl 20) (hh 20)
  · exact hexVal_lt (hl 24) (hh 24)
  · exact hexVal_lt (hl 28) (hh 28)

theorem take_network_region {name : List Nat} {net : Ipv6Network}
    (h8 : net.segments.length = 8) (hp : net.prefixLen < 128) :
    ((hexExpand net.segments).take (network_len net.prefixLen) ++
        (hash name (blake_len net.prefixLen)).take (address_len net.prefixLen)).take
        (network_len net.prefixLen) =
      (hexExpand net.segments).take (network_len net.prefixLen) := by
  have hA : ((hexExpand net.segments).take (network_len net.prefixLen)).length =
      network_len net.prefixLen := by
    simp only [List.length_take, hexExpand_length, h8]
    unfold network_len
    omega
  rw [List.take_append_eq_append_take, hA, Nat.sub_self, List.take_zero, List.append_nil,
    List.take_take, Nat.min_self]

theorem drop_network_region {name : List Nat} {net : Ipv6Network}
    (h8 : net.segments.length = 8) (hp : net.prefixLen < 128) :
    ((hexExpand net.segments).take (network_len net.prefixLen) ++
        (hash name (blake_len net.prefixLen)).take (address_len net.prefixLen)).drop
        (network_len net.prefixLen) =
      (hash name (blake_len net.prefixLen)).take (address_len net.prefixLen) := by
  have hA : ((hexExpand net.segments).take (network_len net.prefixLen)).length =
      network_len net.prefixLen := by
    simp only [List.length_take, hexExpand_length, h8]
    unfold network_len
    omega
  rw [List.drop_append_eq_append_drop, hA, Nat.sub_self, List.drop_zero,
    List.drop_eq_nil_of_le (le_of_eq hA), List.nil_append]

/-! ### The claims -/

/-- C1: for every name and every cidr that parses as a valid IPv6 network
with network size `p < 128`, generation succeeds and the first `p / 4`
hex digits of the result's hexadecimal expansion equal the first `p / 4`
hex digits of the expansion of the network's base address. -/
theorem network_region_preserved (name : List Nat) (cidr : List Char) (net : Ipv6Network)
    (hparse : Ipv6Network.from_str cidr = Except.ok net) (hp : net.prefixLen < 128) :
    ∃ addr, ip name cidr = Outcome.ok addr ∧
      (hexExpand addr).take (net.prefixLen / 4) =
        (hexExpand net.segments).take (net.prefixLen / 4) := by
  obtain ⟨h8, -, -⟩ := from_str_sound hparse
  obtain ⟨hok, hexp⟩ := ip6_ok name net h8 hp
  refine ⟨groupVals (concatRegions name net), ?_, ?_⟩
  · rw [ip_parse_ok hparse hp, hok]
  · have hnl : network_len net.prefixLen = net.prefixLen / 4 := rfl
    rw [hexp, ← hnl, take_network_region h8 hp]

/-- Witness for C1 at `name = "x"`, `cidr = "fd52:f6b0:3162::/48"`. -/
theorem network_region_preserved_witness :
    (Ipv6Network.from_str wCidr = Except.ok wNet ∧ wNet.prefixLen < 128) ∧
      ∃ addr, ip wName wCidr = Outcome.ok addr ∧
        (hexExpand addr).take (wNet.prefixLen / 4) =
          (hexExpand wNet.segments).take (wNet.prefixLen / 4) :=
  ⟨⟨rfl, by decide⟩, network_region_preserved wName wCidr wNet rfl (by decide)⟩

/-- C2: on the same inputs, the host region of the returned address (its
trailing `32 - p / 4` hex digits) equals the first `32 - p / 4` digits of
the lowercase hex rendering of the digest of the name; the digest's extra
trailing character, when the host length is odd, is the one discarded. -/
theorem host_region_from_digest (name : List Nat) (cidr : List Char) (net : Ipv6Network)
    (hparse : Ipv6Network.from_str cidr = Except.ok net) (hp : net.prefixLen < 128) :
    ∃ addr, ip name cidr = Outcome.ok addr ∧
      (hexExpand addr).drop (net.prefixLen / 4) =
        (hash name (blake_len net.prefixLen)).take (32 - net.prefixLen / 4) := by
  obtain ⟨h8, -, -⟩ := from_str_sound hparse
  obtain ⟨hok, hexp⟩ := ip6_ok name net h8 hp
  refine ⟨groupVals (concatRegions name net), ?_, ?_⟩
  · rw [ip_parse_ok hparse hp, hok]
  · have hnl : network_len net.prefixLen = net.prefixLen / 4 := rfl
    have hal : address_len net.prefixLen = 32 - net.prefixLen / 4 := rfl
    rw [hexp, ← hal, ← hnl, drop_network_region h8 hp]

/-- Witness for C2 at `name = "x"`, `cidr = "fd52:f6b0:3162::/48"`. -/
theorem host_region_from_digest_witness :
    (Ipv6Network.from_str wCidr = Except.ok wNet ∧ wNet.prefixLen < 128) ∧
      ∃ addr, ip wName wCidr = Outcome.ok addr ∧
        (hexExpand addr).drop (wNet.prefixLen / 4) =
          (hash wName (blake_len wNet.prefixLen)).take (32 - wNet.prefixLen / 4) :=
  ⟨⟨rfl, by decide⟩, host_region_from_digest wName wCidr wNet rfl (by decide)⟩

/-- C3 (refuted): the concatenation built at line 64 of src/lib.rs is
claimed to be exactly 32 hex digits, but for `fd00::/4` (host length 31,
odd) the code appends the whole 32-digit digest rendering after the
1-digit network region, producing 33 digits; the line-60 slice
`&hash[..hash.len()]` never truncates.  The final address is unaffected
because the regrouping slices stop at index 32. -/
theorem concat_length_33_when_host_odd :
    (concatRegions [120] ⟨[64768, 0, 0, 0, 0, 0, 0, 0], 4⟩).length = 33 := by
  rw [concatRegions_length [120] ⟨[64768, 0, 0, 0, 0, 0, 0, 0], 4⟩ (by norm_num)]
  decide

/-- C4: whenever the cidr parses with network size exactly 128, generation
fails with the full-address error carrying the offending address and
network size, for every name. -/
theorem full_prefix_rejected (name : List Nat) (cidr : List Char) (net : Ipv6Network)
    (hparse : Ipv6Network.from_str cidr = Except.ok net) (hp : net.prefixLen = 128) :
    ip name cidr = Outcome.err (GenError.alreadyFullAddress net.segments net.prefixLen) := by
  simp [ip, hparse, hp]

/-- Witness for C4 at `name = "x"`, `cidr = "fd52:f6b0:3162::/128"`. -/
theorem full_prefix_rejected_witness :
    (Ipv6Network.from_str wCidr128 = Except.ok wNet128 ∧ wNet128.prefixLen = 128) ∧
      ip wName wCidr128 =
        Outcome.err (GenError.alreadyFullAddress wNet128.segments wNet128.prefixLen) :=
  ⟨⟨rfl, rfl⟩, full_prefix_rejected wName wCidr128 wNet128 rfl rfl⟩

/-- C5: whenever the cidr text does not parse as an IPv6 network, generation
fails with the invalid-network error carrying the parser's diagnostic,
for every name. -/
theorem invalid_network_rejected (name : List Nat) (cidr : List Char) (e : IpNetworkError)
    (hparse : Ipv6Network.from_str cidr = Except.error e) :
    ip name cidr = Outcome.err (GenError.invalidNetwork e) := by
  simp [ip, hparse]

/-- Witness for C5 at `name = "x"`, `cidr = "not-a-cidr"`. -/
theorem invalid_network_rejected_witness :
    Ipv6Network.from_str wBad = Except.error (IpNetworkError.invalidCidrFormat wBad) ∧
      ip wName wBad = Outcome.err
        (GenError.invalidNetwork (IpNetworkError.invalidCidrFormat wBad)) :=
  ⟨rfl, invalid_network_rejected wName wBad (IpNetworkError.invalidCidrFormat wBad) rfl⟩

/-- C6: for every name and every cidr that parses with network size below
128, the defensive re-parse of the assembled 8-group string succeeds —
generation returns a syntactically valid address (eight 16-bit segments)
and the assembly-error branch is not taken. -/
theorem assembly_always_valid (name : List Nat) (cidr : List Char) (net : Ipv6Network)
    (hparse : Ipv6Network.from_str cidr = Except.ok net) (hp : net.prefixLen < 128) :
    ∃ addr, ip name cidr = Outcome.ok addr ∧ addr.length = 8 ∧ ∀ x ∈ addr, x < 65536 := by
  obtain ⟨h8, -, -⟩ := from_str_sound hparse
  obtain ⟨hok, -⟩ := ip6_ok name net h8 hp
  refine ⟨groupVals (concatRegions name net), ?_, rfl, ?_⟩
  · rw [ip_parse_ok hparse hp, hok]
  · exact groupVals_lt _ concatRegions_lhex

/-- Witness for C6 at `name = "x"`, `cidr = "fd52:f6b0:3162::/48"`. -/
theorem assembly_always_valid_witness :
    (Ipv6Network.from_str wCidr = Except.ok wNet ∧ wNet.prefixLen < 128) ∧
      ∃ addr, ip wName wCidr = Outcome.ok addr ∧ addr.length = 8 ∧ ∀ x ∈ addr, x < 65536 :=
  ⟨⟨rfl, by decide⟩, assembly_always_valid wName wCidr wNet rfl (by decide)⟩

/-- C7: for every name, `subnet` returns exactly four characters, all
lowercase hex digits, and the string is precisely the lowercase hex
rendering of the 2-byte Blake2b digest of the name; being a pure
function of the name, repeated calls agree. -/
theorem subnet_hash_format (name : List Nat) :
    (subnet name).length = 4 ∧ (∀ c ∈ subnet name, LHex c) ∧
      subnet name = ((blake2b 2 name).map byteHex).flatten := by
  refine ⟨?_, ?_, rfl⟩
  · have h := hash_length_small name (show (2 : Nat) ≤ 64 by norm_num)
    simpa [subnet] using h
  · intro c hc
    exact lhex_hash (show c ∈ hash name 2 from hc)

/-- C8: generation is deterministic — two calls on equal inputs return
equal outcomes (the embedding is a pure function with no state). -/
theorem generate_deterministic (n1 : List Nat) (c1 : List Char) (n2 : List Nat)
    (c2 : List Char) (hn : n1 = n2) (hc : c1 = c2) : ip n1 c1 = ip n2 c2 := by
  rw [hn, hc]

/-- Witness for C8 at `name = "x"`, `cidr = "fd52:f6b0:3162::/48"`. -/
theorem generate_deterministic_witness :
    (wName = wName ∧ wCidr = wCidr) ∧ ip wName wCidr = ip wName wCidr :=
  ⟨⟨rfl, rfl⟩, generate_deterministic wName wCidr wName wCidr rfl rfl⟩

/-- C9: for every network size `p < 128` the region split is exact integer
arithmetic: the network region is `p / 4` (floor) digits, the host region
`32 - p / 4` digits, and the digest byte length is the host length halved
and rounded up — the code's parity increment equals `ceil`. -/
theorem region_split_arithmetic (p : Nat) (hp : p < 128) :
    network_len p = p / 4 ∧ address_len p = 32 - p / 4 ∧
      blake_len p = (address_len p + 1) / 2 := by
  refine ⟨rfl, rfl, ?_⟩
  unfold blake_len address_len network_len
  split <;> omega

/-- Witness for C9 at `p = 48`. -/
theorem region_split_arithmetic_witness :
    48 < 128 ∧ (network_len 48 = 48 / 4 ∧ address_len 48 = 32 - 48 / 4 ∧
      blake_len 48 = (address_len 48 + 1) / 2) :=
  ⟨by norm_num, region_split_arithmetic 48 (by norm_num)⟩

/-- C10: generation never panics — every Rust slice taken during
generation is in bounds for every name and every cidr text, so the
function is total; the `panic` outcome is unreachable. -/
theorem generate_never_panics (name : List Nat) (cidr : List Char) :
    ip name cidr ≠ Outcome.panic := by
  unfold ip
  split
  · simp
  · rename_i net hnet
    split
    · simp
    · rename_i hne
      obtain ⟨h8, -, hle⟩ := from_str_sound hnet
      have hp : net.prefixLen < 128 := lt_of_le_of_ne hle hne
      rw [(ip6_ok name net h8 hp).1]
      simp

/-! ### End-to-end evaluations

Closed computations of the embedding, checked by the kernel, matching
the repository's test scenario. -/

set_option maxRecDepth 100000 in
/-- The library's own test input generates this concrete address. -/
theorem generate_test_scenario :
    ip (("c0a010fb-2632-40cb-a105-90297cba567a").data.map Char.toNat)
      (("fd52:f6b0:3162::/48").data) =
      Outcome.ok [0xfd52, 0xf6b0, 0x3162, 0x440c, 0x925b, 0x0b5c, 0xb23c, 0x600e] := by
  decide

set_option maxRecDepth 100000 in
/-- Two different names receive different subnet hashes here (the spec's
`alpha`/`beta` scenario). -/
theorem subnet_distinct_scenario :
    subnet [97, 108, 112, 104, 97] ≠ subnet [98, 101, 116, 97] := by
  decide

end IpGen
